import Mathlib

/-!
Verification development for the Al Meezan legislation ingestion pipeline.

The definitions below are a shallow embedding of the TypeScript sources
(src/scripts/lib/fetcher.ts, src/scripts/lib/parser.ts and the ingestion
driver).  Pure string manipulation is modelled over `List Char`; JavaScript
regular-expression tests are modelled by hand-written scanners that follow
the concrete patterns appearing in the source.  Case mapping is modelled on
the ASCII range (the only range exercised by the patterns and inputs of the
claims); the Unicode NFKD normalisation step of `slugify` is modelled as the
identity, which is correct on ASCII text.
-/

namespace QatariLaw

/-- ASCII lower-casing of a character, modelling JS `toLowerCase` on the
ASCII range (characters outside the range are returned unchanged). -/
def lowerChar (c : Char) : Char :=
  if 'A' ≤ c ∧ c ≤ 'Z' then Char.ofNat (c.toNat + 32) else c

/-- Whitespace class of JS regular expressions (`\s`): tab, line feed,
vertical tab, form feed, carriage return, space, NBSP, and the Unicode
space separators together with the BOM. -/
def isJsWs (c : Char) : Bool :=
  c.toNat ∈ ([9, 10, 11, 12, 13, 32, 0x00a0, 0x1680, 0x2000, 0x2001, 0x2002,
    0x2003, 0x2004, 0x2005, 0x2006, 0x2007, 0x2008, 0x2009, 0x200a, 0x2028,
    0x2029, 0x202f, 0x205f, 0x3000, 0xfeff] : List Nat)

/-- The `replace(/ /g, ' ')` step of `normaliseWhitespace`. -/
def nbspToSpace (c : Char) : Char := if c.toNat = 0x00a0 then ' ' else c

/-- The `replace(/\s+/g, ' ')` step: every maximal whitespace run becomes a
single space.  The flag records whether the scanner is inside a run. -/
def collapseWsGo : Bool → List Char → List Char
  | _, [] => []
  | inRun, c :: rest =>
    if isJsWs c then
      if inRun then collapseWsGo true rest else ' ' :: collapseWsGo true rest
    else c :: collapseWsGo false rest

/-- JS `String.trim` on a character list: drop `\s` characters at both ends. -/
def jsTrimList (l : List Char) : List Char :=
  ((l.dropWhile isJsWs).reverse.dropWhile isJsWs).reverse

/-- Model of `normaliseWhitespace` from src/scripts/lib/parser.ts: NBSP to
space, collapse whitespace runs to single spaces, trim. -/
def normaliseWhitespace (value : String) : String :=
  String.mk (jsTrimList (collapseWsGo false (value.data.map nbspToSpace)))

/-- Literal prefix test over character lists. -/
def isPre : List Char → List Char → Bool
  | [], _ => true
  | _ :: _, [] => false
  | p :: ps, c :: cs => p = c && isPre ps cs

/-- Literal containment test over character lists. -/
def containsSub (p : List Char) : List Char → Bool
  | [] => isPre p []
  | c :: rest => isPre p (c :: rest) || containsSub p rest

/-- Lower-case an entire character list. -/
def lowerL (l : List Char) : List Char := l.map lowerChar

/-- Case-insensitive containment: models a JS `/literal/i.test(hay)` check
for a pattern without metacharacters. -/
def containsCI (hay pat : String) : Bool :=
  containsSub (lowerL pat.data) (lowerL hay.data)

theorem isPre_append (p : List Char) :
    ∀ a t : List Char, isPre p a = true → isPre p (a ++ t) = true := by
  induction p with
  | nil => intro a t _; rfl
  | cons x ps ih =>
    intro a t h
    cases a with
    | nil => simp [isPre] at h
    | cons c cs =>
      simp only [isPre, Bool.and_eq_true, decide_eq_true_eq] at h ⊢
      exact ⟨h.1, ih cs t h.2⟩

theorem isPre_lowerL (p : List Char) (hp : lowerL p = p) :
    ∀ l : List Char, isPre p l = true → isPre p (lowerL l) = true := by
  induction p with
  | nil => intro l _; rfl
  | cons x ps ih =>
    intro l h
    cases l with
    | nil => simp [isPre] at h
    | cons c cs =>
      simp only [isPre, Bool.and_eq_true, decide_eq_true_eq] at h
      have hx : lowerChar x = x ∧ lowerL ps = ps := by
        simpa [lowerL] using hp
      obtain ⟨h1, h2⟩ := h
      subst h1
      simp only [lowerL, List.map_cons, isPre, Bool.and_eq_true, decide_eq_true_eq]
      exact ⟨hx.1.symm, ih hx.2 cs h2⟩

/-- Test modelling the anchored case-insensitive pattern for absolute http
or https addresses used by `toAbsoluteAlMeezanUrl`. -/
def startsHttp (s : String) : Bool :=
  isPre "http://".data (lowerL s.data) || isPre "https://".data (lowerL s.data)

/-- Model of `toAbsoluteAlMeezanUrl` (src/scripts/lib/fetcher.ts lines
223-230, duplicated in src/scripts/lib/parser.ts lines 77-83): absolute
addresses are returned unchanged, otherwise a leading slash is ensured and
the portal host is prepended. -/
def toAbsoluteAlMeezanUrl (pathOrUrl : String) : String :=
  if startsHttp pathOrUrl then pathOrUrl
  else
    let trimmed : List Char :=
      match pathOrUrl.data with
      | '/' :: rest => '/' :: rest
      | l => '/' :: l
    String.mk ("https://www.almeezan.qa".data ++ trimmed)

theorem startsHttp_result (t : List Char) :
    startsHttp (String.mk ("https://www.almeezan.qa".data ++ t)) = true := by
  have h1 : isPre "https://".data (lowerL "https://www.almeezan.qa".data) = true := by
    decide
  have h2 : isPre "https://".data
      (lowerL ("https://www.almeezan.qa".data ++ t)) = true := by
    simpa [lowerL, List.map_append] using
      isPre_append _ (lowerL "https://www.almeezan.qa".data) (lowerL t) h1
  simp only [startsHttp, String.data, Bool.or_eq_true]
  exact Or.inr h2

/-- C10: the locator-to-absolute-URL resolver is idempotent, and any input
that already begins with http:// or https:// is returned unchanged. -/
theorem claim_C10_toAbsoluteAlMeezanUrl_idempotent (s : String) :
    toAbsoluteAlMeezanUrl (toAbsoluteAlMeezanUrl s) = toAbsoluteAlMeezanUrl s ∧
    ((isPre "http://".data s.data = true ∨ isPre "https://".data s.data = true) →
      toAbsoluteAlMeezanUrl s = s) := by
  have habs : ∀ u : String, startsHttp u = true →
      toAbsoluteAlMeezanUrl u = u := by
    intro u hu
    simp [toAbsoluteAlMeezanUrl, hu]
  constructor
  · by_cases hs : startsHttp s = true
    · rw [habs s hs]; exact habs s hs
    · have hres : toAbsoluteAlMeezanUrl s =
          String.mk ("https://www.almeezan.qa".data ++
            (match s.data with
             | '/' :: rest => '/' :: rest
             | l => '/' :: l)) := by
        simp [toAbsoluteAlMeezanUrl, hs]
      rw [hres]
      exact habs _ (startsHttp_result _)
  · intro h
    apply habs
    rcases h with h | h
    · have := isPre_lowerL "http://".data (by decide) s.data h
      simp only [startsHttp, Bool.or_eq_true]
      exact Or.inl this
    · have := isPre_lowerL "https://".data (by decide) s.data h
      simp only [startsHttp, Bool.or_eq_true]
      exact Or.inr this

/-- Witness for C10 at the concrete input http://example.com. -/
theorem claim_C10_witness :
    toAbsoluteAlMeezanUrl "http://example.com" = "http://example.com" :=
  (claim_C10_toAbsoluteAlMeezanUrl_idempotent "http://example.com").2
    (Or.inl (by decide))

/-- Drop a literal prefix from a character list, returning the remainder
when the prefix matches. -/
def dropPre : List Char → List Char → Option (List Char)
  | [], l => some l
  | _ :: _, [] => none
  | p :: ps, c :: cs => if p = c then dropPre ps cs else none

/-- One-position test for the pattern cookiesession followed by a digit,
modelling the body of the regex cookiesession\d+ at a fixed offset. -/
def cookieAt (l : List Char) : Bool :=
  match dropPre "cookiesession".data l with
  | some (d :: _) => d.isDigit
  | _ => false

/-- Scanner for the regex test /cookiesession\d+/i applied to an already
lower-cased character list. -/
def hasCookieMarker : List Char → Bool
  | [] => false
  | c :: rest => cookieAt (c :: rest) || hasCookieMarker rest

/-- Model of isAntiBotChallengeHtml (src/scripts/lib/fetcher.ts lines
65-71): the empty string is not a challenge, otherwise the three
case-insensitive regex tests must all succeed. -/
def isAntiBotChallengeHtml (html : String) : Bool :=
  if html.data = [] then false
  else
    hasCookieMarker (lowerL html.data) &&
    containsCI html "eval(function(p,a,c,k,e,d)" &&
    containsCI html "LawViewWord.aspx"

/-- Semantic form of case-insensitive containment: some decomposition of
the lower-cased haystack exhibits the lower-cased pattern. -/
def ContainsCIP (hay pat : String) : Prop :=
  ∃ pre post, lowerL hay.data = pre ++ lowerL pat.data ++ post

/-- Semantic form of the session-cookie marker: the lower-cased text
contains cookiesession immediately followed by a digit. -/
def CookieMarkerP (hay : String) : Prop :=
  ∃ pre d post, lowerL hay.data = pre ++ "cookiesession".data ++ d :: post ∧
    d.isDigit = true

theorem isPre_iff (p l : List Char) : isPre p l = true ↔ ∃ t, l = p ++ t := by
  induction p generalizing l with
  | nil => simp [isPre]
  | cons x ps ih =>
    cases l with
    | nil =>
      simp [isPre]
    | cons c cs =>
      simp only [isPre, Bool.and_eq_true, decide_eq_true_eq, ih,
        List.cons_append, List.cons_eq_cons]
      constructor
      · rintro ⟨rfl, t, rfl⟩; exact ⟨t, rfl, rfl⟩
      · rintro ⟨t, rfl, rfl⟩; exact ⟨rfl, t, rfl⟩

theorem containsSub_iff (p l : List Char) :
    containsSub p l = true ↔ ∃ pre post, l = pre ++ p ++ post := by
  induction l with
  | nil =>
    simp only [containsSub, isPre_iff]
    constructor
    · rintro ⟨t, ht⟩
      exact ⟨[], t, by simpa using ht⟩
    · rintro ⟨pre, post, h⟩
      have h3 : pre = [] ∧ p = [] ∧ post = [] := by
        simpa [List.append_eq_nil, and_assoc] using h.symm
      exact ⟨[], by simp [h3.2.1]⟩
  | cons c cs ih =>
    simp only [containsSub, Bool.or_eq_true, isPre_iff, ih]
    constructor
    · rintro (⟨t, ht⟩ | ⟨pre, post, h⟩)
      · exact ⟨[], t, by simpa using ht⟩
      · exact ⟨c :: pre, post, by simp [h]⟩
    · rintro ⟨pre, post, h⟩
      cases pre with
      | nil => exact Or.inl ⟨post, by simpa using h⟩
      | cons x xs =>
        simp only [List.cons_append, List.cons_eq_cons] at h
        exact Or.inr ⟨xs, post, h.2⟩

theorem dropPre_iff (p l r : List Char) :
    dropPre p l = some r ↔ l = p ++ r := by
  induction p generalizing l with
  | nil => simp [dropPre]
  | cons x ps ih =>
    cases l with
    | nil => simp [dropPre]
    | cons c cs =>
      by_cases hx : x = c
      · subst hx
        simp [dropPre, ih]
      · simp [dropPre, hx, List.cons_eq_cons, Ne.symm hx]

theorem cookieAt_iff (l : List Char) :
    cookieAt l = true ↔
      ∃ d post, l = "cookiesession".data ++ d :: post ∧ d.isDigit = true := by
  unfold cookieAt
  rcases h : dropPre "cookiesession".data l with _ | r
  · constructor
    · intro hfalse; cases hfalse
    · rintro ⟨d, post, rfl, _⟩
      rw [(dropPre_iff _ _ (d :: post)).mpr rfl] at h
      cases h
  · cases r with
    | nil =>
      rw [dropPre_iff] at h
      subst h
      constructor
      · intro hfalse; cases hfalse
      · rintro ⟨d, post, habs, _⟩
        have := List.append_inj_right habs rfl
        cases this
    | cons d rest =>
      rw [dropPre_iff] at h
      subst h
      constructor
      · intro hd; exact ⟨d, rest, rfl, hd⟩
      · rintro ⟨e, post, habs, he⟩
        have := List.append_inj_right habs rfl
        rw [List.cons_eq_cons] at this
        rw [this.1]; exact he

theorem hasCookieMarker_iff (l : List Char) :
    hasCookieMarker l = true ↔
      ∃ pre d post, l = pre ++ "cookiesession".data ++ d :: post ∧
        d.isDigit = true := by
  induction l with
  | nil =>
    simp only [hasCookieMarker]
    constructor
    · intro hfalse; cases hfalse
    · rintro ⟨pre, d, post, h, _⟩
      have : ([] : List Char).length = (pre ++ "cookiesession".data ++ d :: post).length :=
        congrArg List.length h
      simp [List.length_append] at this
      exfalso
      omega
  | cons c cs ih =>
    simp only [hasCookieMarker, Bool.or_eq_true, cookieAt_iff, ih]
    constructor
    · rintro (⟨d, post, h, hd⟩ | ⟨pre, d, post, h, hd⟩)
      · exact ⟨[], d, post, by simpa using h, hd⟩
      · exact ⟨c :: pre, d, post, by simp [h], hd⟩
    · rintro ⟨pre, d, post, h, hd⟩
      cases pre with
      | nil => exact Or.inl ⟨d, post, by simpa using h, hd⟩
      | cons x xs =>
        simp only [List.cons_append, List.cons_eq_cons] at h
        exact Or.inr ⟨xs, d, post, h.2, hd⟩

/-- Modelled from the spec for comparison with the code: classify a text
response as a challenge page when it matches a session-cookie token marker
together with an obfuscated bootstrap-script marker together with a marker
referencing the originally requested endpoint. -/
def challengeFingerprintSpec (endpoint html : String) : Bool :=
  hasCookieMarker (lowerL html.data) &&
  containsCI html "eval(function(p,a,c,k,e,d)" &&
  containsCI html endpoint

/-- C4 counterexample: for the requested endpoint LawsByYear.aspx and a
challenge page referencing that endpoint, the spec fingerprint holds but
the classifier answers false, because the code tests the fixed marker
LawViewWord.aspx rather than the originally requested endpoint. -/
theorem claim_C4_counterexample :
    ¬ (isAntiBotChallengeHtml
        "cookiesession1 eval(function(p,a,c,k,e,d) LawsByYear.aspx" = true ↔
      challengeFingerprintSpec "LawsByYear.aspx"
        "cookiesession1 eval(function(p,a,c,k,e,d) LawsByYear.aspx" = true) := by
  decide

/-- C4 (amended): the classifier returns true exactly when the response
contains the session-cookie token marker, the obfuscated bootstrap-script
marker, and the fixed LawViewWord.aspx endpoint marker, all matched
case-insensitively, regardless of which endpoint was requested. -/
theorem claim_C4_amended_classifier_fingerprint (html : String) :
    isAntiBotChallengeHtml html = true ↔
      (CookieMarkerP html ∧ ContainsCIP html "eval(function(p,a,c,k,e,d)" ∧
        ContainsCIP html "LawViewWord.aspx") := by
  unfold isAntiBotChallengeHtml
  by_cases hempty : html.data = []
  · rw [if_pos hempty]
    constructor
    · intro hfalse; cases hfalse
    · rintro ⟨⟨pre, d, post, h, _⟩, _, _⟩
      have : (lowerL html.data).length =
          (pre ++ "cookiesession".data ++ d :: post).length := congrArg List.length h
      simp [hempty, lowerL, List.length_append] at this
      exfalso
      omega
  · rw [if_neg hempty]
    simp only [Bool.and_eq_true, hasCookieMarker_iff, containsCI, containsSub_iff,
      CookieMarkerP, ContainsCIP]
    tauto

/-- Model of the LawViewWord URL dispatch test of fetchTextFromUrl. -/
def isLawViewWordUrl (url : String) : Bool := containsCI url "LawViewWord.aspx"

/-- Model of fetchTextFromUrl (src/scripts/lib/fetcher.ts lines 160-207).
Network effects are abstracted into the outcomes of the two transports:
`curl` is the result of fetchViaCurlWithRetry decoded as UTF-8, `fetchRes`
the result of fetchWithRetry followed by response.text(); each is either a
body or the collected message of the thrown error.  Retry loops collapse
because every call in fetchTextFromUrl uses the default maxRetries = 0. -/
def fetchTextFromUrl (url : String) (curl fetchRes : Except String String) :
    Except String String :=
  if isLawViewWordUrl url then
    match curl with
    | .error e => .error e
    | .ok curlBody =>
      if isAntiBotChallengeHtml curlBody = false then .ok curlBody
      else
        match fetchRes with
        | .error e => .error e
        | .ok fetchBody =>
          if isAntiBotChallengeHtml fetchBody = false then .ok fetchBody
          else .error ("Received anti-bot challenge via both curl and fetch for " ++ url)
  else
    match fetchRes with
    | .ok body =>
      if body ≠ "" ∧ isAntiBotChallengeHtml body = false then .ok body
      else
        match curl with
        | .error e => .error e
        | .ok curlBody =>
          if isAntiBotChallengeHtml curlBody = true then
            .error ("Received anti-bot challenge via both fetch and curl for " ++ url)
          else .ok curlBody
    | .error fe =>
      match curl with
      | .error e => .error e
      | .ok curlBody =>
        if isAntiBotChallengeHtml curlBody = true then
          .error ("Received anti-bot challenge via both fetch and curl for " ++ url ++ ": " ++ fe)
        else .ok curlBody

/-- C3: a successful text fetch never returns a body classified as a
challenge page, and when both transports yield challenge pages the fetch
fails with the error naming both transports. -/
theorem claim_C3_fetchText_never_returns_challenge (url : String)
    (curl fetchRes : Except String String) :
    (∀ body, fetchTextFromUrl url curl fetchRes = .ok body →
      isAntiBotChallengeHtml body = false) ∧
    (∀ cb fb, curl = .ok cb → fetchRes = .ok fb →
      isAntiBotChallengeHtml cb = true → isAntiBotChallengeHtml fb = true →
      (fetchTextFromUrl url curl fetchRes =
          .error ("Received anti-bot challenge via both curl and fetch for " ++ url) ∨
        fetchTextFromUrl url curl fetchRes =
          .error ("Received anti-bot challenge via both fetch and curl for " ++ url))) := by
  constructor
  · intro body h
    by_cases hl : isLawViewWordUrl url = true
    · rcases curl with e | cb
      · simp [fetchTextFromUrl, hl] at h
      · by_cases h1 : isAntiBotChallengeHtml cb = false
        · simp [fetchTextFromUrl, hl, h1] at h
          subst h; exact h1
        · rcases fetchRes with f | fb
          · simp [fetchTextFromUrl, hl, h1] at h
          · by_cases h2 : isAntiBotChallengeHtml fb = false
            · simp [fetchTextFromUrl, hl, h1, h2] at h
              subst h; exact h2
            · simp [fetchTextFromUrl, hl, h1, h2] at h
    · rcases fetchRes with f | fb
      · rcases curl with e | cb
        · simp [fetchTextFromUrl, hl] at h
        · by_cases h1 : isAntiBotChallengeHtml cb = true
          · simp [fetchTextFromUrl, hl, h1] at h
          · simp [fetchTextFromUrl, hl, h1] at h
            subst h; simpa using h1
      · by_cases h0 : fb = ""
        · rcases curl with e | cb
          · simp [fetchTextFromUrl, hl, h0] at h
          · by_cases h1 : isAntiBotChallengeHtml cb = true
            · simp [fetchTextFromUrl, hl, h0, h1] at h
            · simp [fetchTextFromUrl, hl, h0, h1] at h
              subst h; simpa using h1
        · by_cases h2 : isAntiBotChallengeHtml fb = false
          · simp [fetchTextFromUrl, hl, h0, h2] at h
            subst h; exact h2
          · rcases curl with e | cb
            · simp [fetchTextFromUrl, hl, h0, h2] at h
            · by_cases h1 : isAntiBotChallengeHtml cb = true
              · simp [fetchTextFromUrl, hl, h0, h2, h1] at h
              · simp [fetchTextFromUrl, hl, h0, h2, h1] at h
                subst h; simpa using h1
  · rintro cb fb rfl rfl hcb hfb
    unfold fetchTextFromUrl
    by_cases hl : isLawViewWordUrl url = true
    · simp [hl, hcb, hfb]
    · simp [hl, hcb, hfb]

/-- Witness for C3: both transports yield a concrete challenge page and the
fetch fails with the error naming both transports. -/
theorem claim_C3_witness :
    (fetchTextFromUrl "https://www.almeezan.qa/EnglishLawsList.aspx"
        (.ok "cookiesession1 eval(function(p,a,c,k,e,d) LawViewWord.aspx")
        (.ok "cookiesession1 eval(function(p,a,c,k,e,d) LawViewWord.aspx") =
      .error ("Received anti-bot challenge via both curl and fetch for " ++
        "https://www.almeezan.qa/EnglishLawsList.aspx") ∨
     fetchTextFromUrl "https://www.almeezan.qa/EnglishLawsList.aspx"
        (.ok "cookiesession1 eval(function(p,a,c,k,e,d) LawViewWord.aspx")
        (.ok "cookiesession1 eval(function(p,a,c,k,e,d) LawViewWord.aspx") =
      .error ("Received anti-bot challenge via both fetch and curl for " ++
        "https://www.almeezan.qa/EnglishLawsList.aspx")) :=
  (claim_C3_fetchText_never_returns_challenge
      "https://www.almeezan.qa/EnglishLawsList.aspx"
      (.ok "cookiesession1 eval(function(p,a,c,k,e,d) LawViewWord.aspx")
      (.ok "cookiesession1 eval(function(p,a,c,k,e,d) LawViewWord.aspx")).2
    _ _ rfl rfl (by decide) (by decide)

/-- Minimum pacing interval between dispatch starts (MIN_DELAY_MS,
src/scripts/lib/fetcher.ts line 13). -/
def MIN_DELAY_MS : Nat := 1000

/-- One caller passing through the serialized critical section of
enforceRateLimit (src/scripts/lib/fetcher.ts lines 22-40).  The promise
chain admits callers one at a time in FIFO order; `drift` is the time
elapsed between the previous caller's release and this caller's Date.now()
read, and `lag` is any timer overshoot of sleep plus the delay before the
final Date.now() read that becomes the recorded dispatch timestamp. -/
structure GateStep where
  drift : Nat
  lag : Nat

/-- The dispatch timestamp recorded by one pass through the gate, given the
previous recorded timestamp `last` (the clock equals `last` at release
time, since lastRequestAt is set from Date.now() at that same moment). -/
def nextDispatch (last : Nat) (s : GateStep) : Nat :=
  let now := last + s.drift
  let elapsed := now - last
  if elapsed < MIN_DELAY_MS then now + (MIN_DELAY_MS - elapsed) + s.lag
  else now + s.lag

/-- The sequence of dispatch timestamps recorded by a FIFO queue of callers
admitted through the gate. -/
def dispatchTimes (last : Nat) : List GateStep → List Nat
  | [] => []
  | s :: rest =>
    let t := nextDispatch last s
    t :: dispatchTimes t rest

theorem nextDispatch_ge (last : Nat) (s : GateStep) :
    last + MIN_DELAY_MS ≤ nextDispatch last s := by
  unfold nextDispatch
  dsimp only
  split <;> omega

theorem dispatchTimes_chain (steps : List GateStep) (last : Nat) :
    List.Chain (fun a b => a + MIN_DELAY_MS ≤ b) last (dispatchTimes last steps) := by
  induction steps generalizing last with
  | nil => exact List.Chain.nil
  | cons s rest ih =>
    exact List.Chain.cons (nextDispatch_ge last s) (ih (nextDispatch last s))

/-- C2: for every pair of dispatches admitted through the serialized pacing
gate, in FIFO order and over arbitrary caller timing, the recorded dispatch
timestamps differ by at least the configured minimum interval. -/
theorem claim_C2_rate_limit_min_interval (last : Nat) (steps : List GateStep)
    (i j : Nat) (hij : i < j) (hj : j < (dispatchTimes last steps).length) :
    (dispatchTimes last steps).getD i 0 + MIN_DELAY_MS ≤
      (dispatchTimes last steps).getD j 0 := by
  have hchain := dispatchTimes_chain steps last
  haveI : IsTrans Nat (fun a b : Nat => a + MIN_DELAY_MS ≤ b) :=
    ⟨fun a b c hab hbc => by
      have hab2 : a + MIN_DELAY_MS ≤ b := hab
      have hbc2 : b + MIN_DELAY_MS ≤ c := hbc
      show a + MIN_DELAY_MS ≤ c
      omega⟩
  have hpw : (dispatchTimes last steps).Pairwise
      (fun a b : Nat => a + MIN_DELAY_MS ≤ b) :=
    (List.chain_iff_pairwise.mp hchain).sublist (List.sublist_cons_self _ _)
  have hi : i < (dispatchTimes last steps).length := lt_trans hij hj
  have := (List.pairwise_iff_get.mp hpw) ⟨i, hi⟩ ⟨j, hj⟩ hij
  rwa [List.getD_eq_getElem _ _ hi, List.getD_eq_getElem _ _ hj]

/-- Witness for C2 on a concrete two-caller schedule. -/
theorem claim_C2_witness :
    (dispatchTimes 0 [⟨0, 0⟩, ⟨5, 0⟩]).getD 0 0 + MIN_DELAY_MS ≤
      (dispatchTimes 0 [⟨0, 0⟩, ⟨5, 0⟩]).getD 1 0 :=
  claim_C2_rate_limit_min_interval 0 [⟨0, 0⟩, ⟨5, 0⟩] 0 1 (by decide) (by decide)

/-- First-match lookup in an ordered association list, modelling Map.get. -/
def mapGet {α : Type} : List (String × α) → String → Option α
  | [], _ => none
  | (k, v) :: rest, key => if key = k then some v else mapGet rest key

/-- Update-or-append write in an ordered association list, modelling
Map.set: an existing key keeps its position, a new key is appended. -/
def mapSet {α : Type} : List (String × α) → String → α → List (String × α)
  | [], key, v => [(key, v)]
  | (k, w) :: rest, key, v =>
    if key = k then (key, v) :: rest else (k, w) :: mapSet rest key v

/-- A law listing discovered on a LawsByYear page (interface LawListing of
the ingestion driver). -/
structure LawListing where
  law_id : String
  title : String
  year : Nat
  language : String
  source_url : String
deriving DecidableEq

/-- Model of the addLaw closure of crawlLawIndex (src/unnamed/part_000
lines 901-921): a size limit (when set) blocks only new keys; otherwise the
listing is inserted, and on a law_id collision the existing entry keeps the
longer title and the earliest year. -/
def addLaw (limit : Option Nat) (m : List (String × LawListing))
    (law : LawListing) : List (String × LawListing) :=
  let blocked : Bool :=
    match limit with
    | some n => decide (m.length ≥ n) && (mapGet m law.law_id).isNone
    | none => false
  if blocked then m
  else
    match mapGet m law.law_id with
    | none => mapSet m law.law_id law
    | some existing =>
      let richerTitle :=
        if law.title.length > existing.title.length then law.title else existing.title
      let earlierYear := min law.year existing.year
      mapSet m law.law_id { existing with title := richerTitle, year := earlierYear }

/-- C6: merging two catalog entries with the same lawId keeps the longer
title and the earliest discovered year; every other field of the first
entry is kept unchanged, and the retained title has maximal length. -/
theorem claim_C6_catalog_merge_longer_title_earliest_year
    (l1 l2 : LawListing) (h : l2.law_id = l1.law_id) :
    addLaw none (addLaw none [] l1) l2 =
      [(l1.law_id,
        { l1 with
          title := if l2.title.length > l1.title.length then l2.title else l1.title,
          year := min l2.year l1.year })] ∧
    (if l2.title.length > l1.title.length then l2.title else l1.title).length =
      max l2.title.length l1.title.length := by
  constructor
  · have h1 : addLaw none [] l1 = [(l1.law_id, l1)] := by
      simp [addLaw, mapGet, mapSet]
    rw [h1]
    simp [addLaw, mapGet, mapSet, h]
  · split <;> rename_i hlen <;> omega

/-- Witness for C6 on the concrete example from the specification: lawId
42, titles Law A and Law A (Amended), years 2019 and 2021. -/
theorem claim_C6_witness :
    addLaw none (addLaw none [] ⟨"42", "Law A", 2019, "ar", "u"⟩)
        ⟨"42", "Law A (Amended)", 2021, "ar", "u2"⟩ =
      [("42", ⟨"42", "Law A (Amended)", 2019, "ar", "u"⟩)] := by
  have hmain := claim_C6_catalog_merge_longer_title_earliest_year
    ⟨"42", "Law A", 2019, "ar", "u"⟩ ⟨"42", "Law A (Amended)", 2021, "ar", "u2"⟩ rfl
  rw [hmain.1]
  decide

/-- ASCII letter test, the regex class [A-Za-z]. -/
def isAsciiLetter (c : Char) : Bool :=
  decide (65 ≤ c.toNat ∧ c.toNat ≤ 90) || decide (97 ≤ c.toNat ∧ c.toNat ≤ 122)

/-- ASCII digit test, the regex class [0-9] and the class \d. -/
def isAsciiDigit (c : Char) : Bool := decide (48 ≤ c.toNat ∧ c.toNat ≤ 57)

/-- Case-insensitive literal prefix drop: the pattern is given lower-cased
and compared against the lower-cased input. -/
def dropPreCI : List Char → List Char → Option (List Char)
  | [], l => some l
  | _ :: _, [] => none
  | p :: ps, c :: cs => if p = lowerChar c then dropPreCI ps cs else none

/-- Maximal run of ASCII digits at the head of the list, with remainder. -/
def takeDigits : List Char → (List Char × List Char)
  | [] => ([], [])
  | c :: rest =>
    if isAsciiDigit c then
      let (ds, r) := takeDigits rest
      (c :: ds, r)
    else ([], c :: rest)

/-- The separator class of the article heading regexes. -/
def sepChar (c : Char) : Bool := c == '-' || c == '–' || c == ':' || c == '.'

/-- The tail of the single-line article regex after the number token:
optional whitespace, optional closing parenthesis, then either end of line
or a separator introducing inline text.  Returns the optional inline text
(empty inline text becomes none, as in the source). -/
def afterNumberTail (l : List Char) : Option (Option String) :=
  let l1 := l.dropWhile isJsWs
  let l2 := match l1 with
    | ')' :: r => r
    | _ => l1
  match l2 with
  | [] => some none
  | _ =>
    let l3 := l2.dropWhile isJsWs
    match l3 with
    | c :: r =>
      if sepChar c then
        let inline := String.mk (jsTrimList (r.dropWhile isJsWs))
        some (if inline = "" then none else some inline)
      else none
    | [] => none

/-- The single-line article heading regex of matchArticleHeading (parser.ts
line 241): the Article keyword, an optional parenthesised number token with
an optional trailing letter, and optional inline text after a separator.
The with-letter reading is tried first, mirroring greedy matching. -/
def matchSingleArticle (l : List Char) : Option (String × Option String) :=
  match dropPreCI "article".data l with
  | none => none
  | some r0 =>
    let r1 := r0.dropWhile isJsWs
    let r2 := match r1 with
      | '(' :: r => r
      | _ => r1
    let r3 := r2.dropWhile isJsWs
    match takeDigits r3 with
    | ([], _) => none
    | (ds, rest) =>
      let withLetter : Option (String × Option String) :=
        match rest with
        | c :: r =>
          if isAsciiLetter c then
            match afterNumberTail r with
            | some inl => some (String.mk (ds ++ [c]), inl)
            | none => none
          else none
        | [] => none
      match withLetter with
      | some res => some res
      | none =>
        match afterNumberTail rest with
        | some inl => some (String.mk ds, inl)
        | none => none

/-- Model of parseSectionToken (parser.ts lines 232-235): an optionally
parenthesised number token with optional trailing letter, alone. -/
def parseSectionToken (value : String) : Option String :=
  let l := value.data
  let l1 := match l with
    | '(' :: r => r
    | _ => l
  let l2 := l1.dropWhile isJsWs
  let endCheck : List Char → Bool := fun r =>
    let r1 := r.dropWhile isJsWs
    let r2 := match r1 with
      | ')' :: rr => rr
      | _ => r1
    r2.isEmpty
  match takeDigits l2 with
  | ([], _) => none
  | (ds, rest) =>
    match rest with
    | c :: r =>
      if isAsciiLetter c && endCheck r then some (String.mk (ds ++ [c]))
      else if endCheck (c :: r) then some (String.mk ds) else none
    | [] => some (String.mk ds)

/-- The two-line heading keyword test of matchArticleHeading (parser.ts
line 253): the Article keyword alone, optionally followed by an opening
parenthesis. -/
def isArticleKeywordLine (l : List Char) : Bool :=
  match dropPreCI "article".data l with
  | none => false
  | some r =>
    let r1 := r.dropWhile isJsWs
    let r2 := match r1 with
      | '(' :: rr => rr
      | _ => r1
    r2.isEmpty

/-- Result of a heading matcher (interface HeadingMatch of parser.ts). -/
structure HeadingMatch where
  sectionLabel : String
  consumed : Nat
  inlineText : Option String
deriving DecidableEq

/-- Model of matchArticleHeading (parser.ts lines 237-276); `rawNext` is
the following line, or the empty string at end of input. -/
def matchArticleHeading (rawLine rawNext : String) : Option HeadingMatch :=
  let line := normaliseWhitespace rawLine
  if line = "" then none
  else
    match matchSingleArticle line.data with
    | some (sec, inl) => some ⟨sec, 1, inl⟩
    | none =>
      let next := normaliseWhitespace rawNext
      if next = "" then none
      else
        let twoLine : Option HeadingMatch :=
          if isArticleKeywordLine line.data then
            match parseSectionToken next with
            | some tok => some ⟨tok, 2, none⟩
            | none => none
          else none
        match twoLine with
        | some hm => some hm
        | none =>
          let combined := normaliseWhitespace (line ++ " " ++ next)
          match matchSingleArticle combined.data with
          | some (sec, inl) =>
            if line.length ≤ 40 ∧ next.length ≤ 40 then some ⟨sec, 2, inl⟩
            else none
          | none => none

/-- Lower-case ASCII alphanumeric test, the class [a-z0-9]. -/
def isLowerAlnum (c : Char) : Bool :=
  decide (97 ≤ c.toNat ∧ c.toNat ≤ 122) || isAsciiDigit c

/-- The replace of [^a-z0-9]+ runs by single dashes used by
makeProvisionRef and slugify; the flag records being inside a run. -/
def dashCollapseGo : Bool → List Char → List Char
  | _, [] => []
  | inRun, c :: rest =>
    if isLowerAlnum c then c :: dashCollapseGo false rest
    else if inRun then dashCollapseGo true rest
    else '-' :: dashCollapseGo true rest

/-- Strip leading and trailing dashes, the replace of ^-+|-+$. -/
def trimDashes (l : List Char) : List Char :=
  ((l.dropWhile (fun c => c == '-')).reverse.dropWhile (fun c => c == '-')).reverse

/-- Model of makeProvisionRef (parser.ts lines 278-281). -/
def makeProvisionRef (sec : String) : String :=
  let lowered := sec.data.map lowerChar
  let normalised := trimDashes (dashCollapseGo false lowered)
  String.mk ("art".data ++ (if normalised.isEmpty then lowered else normalised))

/-- An article-level provision (interface ParsedProvision of parser.ts). -/
structure ParsedProvision where
  provision_ref : String
  sectionLabel : String
  title : String
  content : String
deriving DecidableEq

/-- Join buffered lines with newlines, modelling Array.join of the flush. -/
def joinLines : List String → List Char
  | [] => []
  | [s] => s.data
  | s :: rest => s.data ++ '\n' :: joinLines rest

/-- The replace of \n{3,} runs by two newlines in the flush; the counter
holds the number of pending newline characters. -/
def collapseNlGo : Nat → List Char → List Char
  | run, [] => List.replicate (min run 2) '\n'
  | run, c :: rest =>
    if c = '\n' then collapseNlGo (run + 1) rest
    else List.replicate (min run 2) '\n' ++ c :: collapseNlGo 0 rest

/-- The flushCurrent step of parseDocxLegislation (parser.ts lines
328-347): join the buffer, squeeze blank runs, trim; an empty buffer emits
nothing, otherwise one provision is emitted for the open section. -/
def flushProvision (cur : Option String) (buf : List String) : List ParsedProvision :=
  match cur with
  | none => []
  | some sec =>
    let content := String.mk (jsTrimList (collapseNlGo 0 (joinLines buf)))
    if content = "" then []
    else [{ provision_ref := makeProvisionRef sec, sectionLabel := sec,
            title := "Article (" ++ sec ++ ")", content := content }]

/-- The heading-detection pass of parseDocxLegislation (parser.ts lines
349-369) before deduplication: scan lines, open a section on each matched
heading (seeding the buffer with inline text), buffer non-heading lines
while a section is open, discard front matter, flush at end of input. -/
def headingPassGo : List String → Option String → List String → List ParsedProvision
  | [], cur, buf => flushProvision cur buf
  | l :: rest, cur, buf =>
    match matchArticleHeading l (rest.headD "") with
    | some hm =>
      let seeded : List String := match hm.inlineText with
        | some t => [t]
        | none => []
      match rest with
      | [] => flushProvision cur buf ++ flushProvision (some hm.sectionLabel) seeded
      | r :: rest2 =>
        if hm.consumed = 2 then
          flushProvision cur buf ++ headingPassGo rest2 (some hm.sectionLabel) seeded
        else
          flushProvision cur buf ++ headingPassGo (r :: rest2) (some hm.sectionLabel) seeded
    | none =>
      match cur with
      | none => headingPassGo rest none buf
      | some s => headingPassGo rest (some s) (buf ++ [l])

/-- The dedupe-by-ref fold of parseDocxLegislation (parser.ts lines
371-378): a Map keyed by provision_ref, where a later provision replaces an
earlier one only when its content is strictly longer. -/
def dedupeGo : List ParsedProvision → List (String × ParsedProvision) →
    List (String × ParsedProvision)
  | [], acc => acc
  | p :: rest, acc =>
    match mapGet acc p.provision_ref with
    | none => dedupeGo rest (mapSet acc p.provision_ref p)
    | some existing =>
      if p.content.length > existing.content.length then
        dedupeGo rest (mapSet acc p.provision_ref p)
      else dedupeGo rest acc

/-- Array.from of the dedupe map values (parser.ts line 380). -/
def dedupeByRef (ps : List ParsedProvision) : List ParsedProvision :=
  (dedupeGo ps []).map Prod.snd

/-- The provisions produced by parseDocxLegislation (parser.ts lines
319-384) from the normalized paragraph sequence (the DOCX XML unpacking
upstream is file input and not part of the pure pipeline). -/
def parseDocxProvisions (paragraphs : List String) : List ParsedProvision :=
  dedupeByRef (headingPassGo paragraphs none [])

/-- C7: the heading-detection pass on the two given lines yields exactly
one provision with section 5 and the second line as its content. -/
theorem claim_C7_explicit_single_line_heading :
    parseDocxProvisions
        ["Article (5)", "Whoever violates this law shall be penalized."] =
      [{ provision_ref := "art5", sectionLabel := "5", title := "Article (5)",
         content := "Whoever violates this law shall be penalized." }] := by
  decide

theorem mapGet_eq_none_iff {α : Type} (m : List (String × α)) (k : String) :
    mapGet m k = none ↔ k ∉ m.map Prod.fst := by
  induction m with
  | nil => simp [mapGet]
  | cons kv rest ih =>
    obtain ⟨k0, v0⟩ := kv
    by_cases hk : k = k0
    · subst hk; simp [mapGet]
    · simp [mapGet, hk, ih]

theorem mapGet_eq_some_mem {α : Type} (m : List (String × α)) (k : String) (v : α)
    (h : mapGet m k = some v) : (k, v) ∈ m := by
  induction m with
  | nil => cases h
  | cons kv rest ih =>
    obtain ⟨k0, v0⟩ := kv
    by_cases hk : k = k0
    · subst hk
      simp [mapGet] at h
      subst h
      exact List.mem_cons_self _ _
    · simp only [mapGet, if_neg hk] at h
      exact List.mem_cons_of_mem _ (ih h)

theorem mapSet_of_not_mem {α : Type} (m : List (String × α)) (k : String) (v : α)
    (h : k ∉ m.map Prod.fst) : mapSet m k v = m ++ [(k, v)] := by
  induction m with
  | nil => simp [mapSet]
  | cons kv rest ih =>
    obtain ⟨k0, v0⟩ := kv
    simp only [List.map_cons, List.mem_cons] at h
    push_neg at h
    simp [mapSet, h.1, ih h.2]

theorem mapSet_map_fst_of_mem {α : Type} (m : List (String × α)) (k : String) (v : α)
    (h : k ∈ m.map Prod.fst) : (mapSet m k v).map Prod.fst = m.map Prod.fst := by
  induction m with
  | nil => simp at h
  | cons kv rest ih =>
    obtain ⟨k0, v0⟩ := kv
    by_cases hk : k = k0
    · subst hk; simp [mapSet]
    · simp only [List.map_cons, List.mem_cons] at h
      rcases h with h | h
      · exact absurd h hk
      · simp [mapSet, hk, ih h]

theorem mem_mapSet_iff {α : Type} (m : List (String × α)) (k : String) (v : α)
    (hn : (m.map Prod.fst).Nodup) (hk : k ∈ m.map Prod.fst) (pr : String × α) :
    pr ∈ mapSet m k v ↔ pr = (k, v) ∨ (pr ∈ m ∧ pr.1 ≠ k) := by
  induction m with
  | nil => simp at hk
  | cons kv rest ih =>
    obtain ⟨k0, v0⟩ := kv
    simp only [List.map_cons, List.nodup_cons] at hn
    by_cases hkk : k = k0
    · subst hkk
      simp only [mapSet, if_pos rfl]
      constructor
      · intro hmem
        rcases List.mem_cons.mp hmem with h | h
        · exact Or.inl h
        · refine Or.inr ⟨List.mem_cons_of_mem _ h, ?_⟩
          intro heq
          exact hn.1 (heq ▸ List.mem_map_of_mem Prod.fst h)
      · rintro (rfl | ⟨hmem, hne⟩)
        · exact List.mem_cons_self _ _
        · rcases List.mem_cons.mp hmem with h | h
          · exact absurd (congrArg Prod.fst h) (by simpa using hne)
          · exact List.mem_cons_of_mem _ h
    · have hk2 : k ∈ rest.map Prod.fst := by
        rcases List.mem_cons.mp hk with h | h
        · exact absurd h hkk
        · exact h
      simp only [mapSet, if_neg hkk]
      constructor
      · intro hmem
        rcases List.mem_cons.mp hmem with h | h
        · subst h
          exact Or.inr ⟨List.mem_cons_self _ _, fun he => hkk (by simpa using he.symm)⟩
        · rcases (ih hn.2 hk2).mp h with h2 | h2
          · exact Or.inl h2
          · exact Or.inr ⟨List.mem_cons_of_mem _ h2.1, h2.2⟩
      · rintro (rfl | ⟨hmem, hne⟩)
        · exact List.mem_cons_of_mem _ ((ih hn.2 hk2).mpr (Or.inl rfl))
        · rcases List.mem_cons.mp hmem with h | h
          · exact h ▸ List.mem_cons_self _ _
          · exact List.mem_cons_of_mem _ ((ih hn.2 hk2).mpr (Or.inr ⟨h, hne⟩))

theorem nodup_key_unique {α : Type} (m : List (String × α))
    (hn : (m.map Prod.fst).Nodup) {k : String} {v w : α}
    (h1 : (k, v) ∈ m) (h2 : (k, w) ∈ m) : v = w := by
  induction m with
  | nil => cases h1
  | cons kv rest ih =>
    obtain ⟨k0, v0⟩ := kv
    simp only [List.map_cons, List.nodup_cons] at hn
    rcases List.mem_cons.mp h1 with e1 | m1 <;> rcases List.mem_cons.mp h2 with e2 | m2
    · rw [Prod.mk.injEq] at e1 e2
      rw [e1.2, e2.2]
    · rw [Prod.mk.injEq] at e1
      exact absurd (e1.1 ▸ List.mem_map_of_mem Prod.fst m2) hn.1
    · rw [Prod.mk.injEq] at e2
      exact absurd (e2.1 ▸ List.mem_map_of_mem Prod.fst m1) hn.1
    · exact ih hn.2 m1 m2

/-- Invariant of the dedupe fold: keys are distinct, every stored provision
carries its key as ref, comes from the processed input, and has maximal
content length among processed provisions with its ref; every processed
provision has its ref present as a key. -/
def DedupeInv (seen : List ParsedProvision)
    (acc : List (String × ParsedProvision)) : Prop :=
  (acc.map Prod.fst).Nodup ∧
  (∀ pr ∈ acc, pr.2.provision_ref = pr.1 ∧ pr.2 ∈ seen ∧
    ∀ q ∈ seen, q.provision_ref = pr.1 → q.content.length ≤ pr.2.content.length) ∧
  (∀ q ∈ seen, q.provision_ref ∈ acc.map Prod.fst)

theorem dedupeGo_inv : ∀ (ps : List ParsedProvision) (seen : List ParsedProvision)
    (acc : List (String × ParsedProvision)), DedupeInv seen acc →
    DedupeInv (seen ++ ps) (dedupeGo ps acc) := by
  intro ps
  induction ps with
  | nil => intro seen acc h; simpa using h
  | cons p rest ih =>
    intro seen acc h
    obtain ⟨hnodup, hentries, hcover⟩ := h
    have hstep : ∀ acc2, DedupeInv (seen ++ [p]) acc2 →
        DedupeInv (seen ++ p :: rest) (dedupeGo rest acc2) := by
      intro acc2 h2
      have := ih (seen ++ [p]) acc2 h2
      simpa using this
    rcases hget : mapGet acc p.provision_ref with _ | existing
    · -- new key: acc grows by an appended entry
      have hnot : p.provision_ref ∉ acc.map Prod.fst :=
        (mapGet_eq_none_iff acc p.provision_ref).mp hget
      have hset := mapSet_of_not_mem acc p.provision_ref p hnot
      show DedupeInv (seen ++ p :: rest) (dedupeGo (p :: rest) acc)
      have hred : dedupeGo (p :: rest) acc =
          dedupeGo rest (mapSet acc p.provision_ref p) := by
        simp [dedupeGo, hget]
      rw [hred]
      apply hstep
      rw [hset]
      refine ⟨?_, ?_, ?_⟩
      · simpa [List.map_append, List.nodup_append] using ⟨hnodup, by simpa using hnot⟩
      · intro pr hpr
        rcases List.mem_append.mp hpr with hpr | hpr
        · obtain ⟨h1, h2, h3⟩ := hentries pr hpr
          refine ⟨h1, List.mem_append_left _ h2, ?_⟩
          intro q hq hqref
          rcases List.mem_append.mp hq with hq | hq
          · exact h3 q hq hqref
          · have hqp : q = p := by simpa using hq
            have heq : p.provision_ref = pr.1 := by rw [← hqp]; exact hqref
            have hkeys : pr.1 ∈ acc.map Prod.fst := List.mem_map_of_mem Prod.fst hpr
            rw [← heq] at hkeys
            exact absurd hkeys hnot
        · have : pr = (p.provision_ref, p) := by simpa using hpr
          subst this
          refine ⟨rfl, List.mem_append_right _ (by simp), ?_⟩
          intro q hq hqref
          rcases List.mem_append.mp hq with hq | hq
          · have heq : q.provision_ref = p.provision_ref := hqref
            have hk2 := hcover q hq
            rw [heq] at hk2
            exact absurd hk2 hnot
          · have hqp : q = p := by simpa using hq
            rw [hqp]
      · intro q hq
        rcases List.mem_append.mp hq with hq | hq
        · rw [List.map_append]
          exact List.mem_append_left _ (hcover q hq)
        · have hqp : q = p := by simpa using hq
          rw [List.map_append, hqp]
          simp
    · -- existing key
      have hmem : (p.provision_ref, existing) ∈ acc := mapGet_eq_some_mem _ _ _ hget
      have hkmem : p.provision_ref ∈ acc.map Prod.fst :=
        List.mem_map_of_mem Prod.fst hmem
      obtain ⟨hex1, hex2, hex3⟩ := hentries _ hmem
      by_cases hlong : p.content.length > existing.content.length
      · have hred : dedupeGo (p :: rest) acc =
            dedupeGo rest (mapSet acc p.provision_ref p) := by
          simp [dedupeGo, hget, hlong]
        show DedupeInv (seen ++ p :: rest) (dedupeGo (p :: rest) acc)
        rw [hred]
        apply hstep
        refine ⟨?_, ?_, ?_⟩
        · rw [mapSet_map_fst_of_mem _ _ _ hkmem]; exact hnodup
        · intro pr hpr
          rcases (mem_mapSet_iff acc _ p hnodup hkmem pr).mp hpr with hpr2 | hpr2
          · subst hpr2
            refine ⟨rfl, List.mem_append_right _ (by simp), ?_⟩
            intro q hq hqref
            rcases List.mem_append.mp hq with hq | hq
            · exact Nat.le_of_lt (Nat.lt_of_le_of_lt (hex3 q hq hqref) hlong)
            · have hqp : q = p := by simpa using hq
              rw [hqp]
          · obtain ⟨hpr3, hprne⟩ := hpr2
            obtain ⟨h1, h2, h3⟩ := hentries pr hpr3
            refine ⟨h1, List.mem_append_left _ h2, ?_⟩
            intro q hq hqref
            rcases List.mem_append.mp hq with hq | hq
            · exact h3 q hq hqref
            · have hqp : q = p := by simpa using hq
              have heq : p.provision_ref = pr.1 := by rw [← hqp]; exact hqref
              exact absurd heq.symm hprne
        · intro q hq
          rw [mapSet_map_fst_of_mem _ _ _ hkmem]
          rcases List.mem_append.mp hq with hq | hq
          · exact hcover q hq
          · have hqp : q = p := by simpa using hq
            rw [hqp]
            exact hkmem
      · have hred : dedupeGo (p :: rest) acc = dedupeGo rest acc := by
          simp [dedupeGo, hget, hlong]
        show DedupeInv (seen ++ p :: rest) (dedupeGo (p :: rest) acc)
        rw [hred]
        apply hstep
        refine ⟨hnodup, ?_, ?_⟩
        · intro pr hpr
          obtain ⟨h1, h2, h3⟩ := hentries pr hpr
          refine ⟨h1, List.mem_append_left _ h2, ?_⟩
          intro q hq hqref
          rcases List.mem_append.mp hq with hq | hq
          · exact h3 q hq hqref
          · have hqp : q = p := by simpa using hq
            have heq : p.provision_ref = pr.1 := by rw [← hqp]; exact hqref
            have hpair : (pr.1, pr.2) ∈ acc := by simpa using hpr
            have hpair2 : (pr.1, existing) ∈ acc := by rw [← heq]; exact hmem
            have hvw : pr.2 = existing := nodup_key_unique acc hnodup hpair hpair2
            rw [hqp, hvw]
            omega
        · intro q hq
          rcases List.mem_append.mp hq with hq | hq
          · exact hcover q hq
          · have hqp : q = p := by simpa using hq
            rw [hqp]
            exact hkmem

/-- C5: the provisions returned by the DOCX parse are pairwise distinct by
provision_ref, and each retained provision comes from the heading pass and
has maximal content length among heading-pass provisions with its ref. -/
theorem claim_C5_provisions_unique_by_ref_keep_longest (paragraphs : List String) :
    ((parseDocxProvisions paragraphs).map (fun p => p.provision_ref)).Nodup ∧
    ∀ p ∈ parseDocxProvisions paragraphs,
      p ∈ headingPassGo paragraphs none [] ∧
      ∀ q ∈ headingPassGo paragraphs none [],
        q.provision_ref = p.provision_ref →
        q.content.length ≤ p.content.length := by
  have hbase : DedupeInv [] [] := by
    refine ⟨List.nodup_nil, ?_, ?_⟩ <;> intro x hx <;> cases hx
  have hinv := dedupeGo_inv (headingPassGo paragraphs none []) [] [] hbase
  simp only [List.nil_append] at hinv
  obtain ⟨hnodup, hentries, _⟩ := hinv
  constructor
  · have hmapeq : (parseDocxProvisions paragraphs).map (fun p => p.provision_ref) =
        (dedupeGo (headingPassGo paragraphs none []) []).map Prod.fst := by
      unfold parseDocxProvisions dedupeByRef
      rw [List.map_map]
      apply List.map_congr_left
      intro pr hpr
      exact (hentries pr hpr).1
    rw [hmapeq]
    exact hnodup
  · intro p hp
    unfold parseDocxProvisions dedupeByRef at hp
    rcases List.mem_map.mp hp with ⟨pr, hpr, rfl⟩
    obtain ⟨h1, h2, h3⟩ := hentries pr hpr
    refine ⟨h2, ?_⟩
    intro q hq hqref
    exact h3 q hq (h1 ▸ hqref)

/-- Witness for C5 on a concrete document with a ref collision: the longer
content wins and refs are unique. -/
theorem claim_C5_witness :
    ((parseDocxProvisions ["Article (1)", "ab", "Article (1)", "abcd"]).map
        (fun p => p.provision_ref)).Nodup ∧
    ({ provision_ref := "art1", sectionLabel := "1", title := "Article (1)",
       content := "ab" } : ParsedProvision).content.length ≤
      ({ provision_ref := "art1", sectionLabel := "1", title := "Article (1)",
         content := "abcd" } : ParsedProvision).content.length :=
  ⟨(claim_C5_provisions_unique_by_ref_keep_longest
      ["Article (1)", "ab", "Article (1)", "abcd"]).1,
   ((claim_C5_provisions_unique_by_ref_keep_longest
        ["Article (1)", "ab", "Article (1)", "abcd"]).2
      { provision_ref := "art1", sectionLabel := "1", title := "Article (1)",
        content := "abcd" } (by decide)).2
      { provision_ref := "art1", sectionLabel := "1", title := "Article (1)",
        content := "ab" } (by decide) (by decide)⟩

/-- A defined term extracted from a provision (interface ParsedDefinition
of parser.ts). -/
structure ParsedDefinition where
  term : String
  definition : String
  source_provision : Option String
deriving DecidableEq

/-- The term character class of the definition regex (parser.ts line 291)
after its leading letter: letters, digits, dash, parentheses, slash, comma
and space. -/
def termClassChar (c : Char) : Bool :=
  isAsciiLetter c || isAsciiDigit c || c == '-' || c == '(' || c == ')' ||
    c == '/' || c == ',' || c == ' '

/-- The explanation character class of the definition regex: anything but
period, semicolon and line feed. -/
def defClassChar (c : Char) : Bool := !(c == '.' || c == ';' || c == '\n')

/-- Opening quote alternatives of the definition regex. -/
def openQuoteChar (c : Char) : Bool := c == '"' || c == '“' || c.toNat == 39

/-- Closing quote alternatives of the definition regex. -/
def closeQuoteChar (c : Char) : Bool := c == '"' || c == '”' || c.toNat == 39

/-- The part of the definition regex after the captured term: an optional
closing quote, whitespace, the means keyword, whitespace, then 10 to 500
explanation-class characters matched greedily.  Returns the explanation
characters and the remainder of the input. -/
def afterTermMatch (l : List Char) : Option (List Char × List Char) :=
  let tryFrom : List Char → Option (List Char × List Char) := fun l2 =>
    if (l2.takeWhile isJsWs).isEmpty then none
    else
      let l3 := l2.dropWhile isJsWs
      match dropPreCI "means".data l3 with
      | none => none
      | some l4 =>
        if (l4.takeWhile isJsWs).isEmpty then none
        else
          let l5 := l4.dropWhile isJsWs
          let body := l5.takeWhile defClassChar
          let taken := body.take 500
          if taken.length < 10 then none
          else some (taken, l5.drop taken.length)
  match l with
  | c :: r =>
    if closeQuoteChar c then
      match tryFrom r with
      | some res => some res
      | none => tryFrom l
    else tryFrom l
  | [] => none

/-- Greedy backtracking over the term length: try the longest reading of
the term class run first (the counter is the number of class characters
still included), shrinking down to one character. -/
def tryTermFrom (first : Char) (extra : List Char) (r2 : List Char) :
    Nat → Option (List Char × List Char × List Char)
  | 0 => none
  | k + 1 =>
    match afterTermMatch (extra.drop (k + 1) ++ r2) with
    | some (d, rest) => some (first :: extra.take (k + 1), d, rest)
    | none => tryTermFrom first extra r2 k

/-- The term part of the definition regex: a leading ASCII letter followed
by 1 to 80 term-class characters, greedy with backtracking. -/
def matchDefCore (l : List Char) : Option (List Char × List Char × List Char) :=
  match l with
  | c :: r =>
    if isAsciiLetter c then
      let extraFull := r.takeWhile termClassChar
      let r2 := r.drop extraFull.length
      tryTermFrom c extraFull r2 (min extraFull.length 80)
    else none
  | [] => none

/-- The optional opening quote of the definition regex, tried greedily. -/
def matchDefBody (l : List Char) : Option (List Char × List Char × List Char) :=
  match l with
  | c :: r =>
    if openQuoteChar c then
      match matchDefCore r with
      | some res => some res
      | none => matchDefCore l
    else matchDefCore l
  | [] => none

/-- One match attempt of the definition regex at the current position,
handling the anchor: at position zero the empty start-of-input alternative
is tried first, otherwise a separator followed by whitespace is consumed. -/
def tryMatchDefAt (atStart : Bool) (l : List Char) :
    Option (List Char × List Char × List Char) :=
  let viaSep : Option (List Char × List Char × List Char) :=
    match l with
    | c :: r =>
      if c == '.' || c == ';' then
        if (r.takeWhile isJsWs).isEmpty then none
        else matchDefBody (r.dropWhile isJsWs)
      else none
    | [] => none
  if atStart then
    match matchDefBody l with
    | some res => some res
    | none => viaSep
  else viaSep

/-- The global exec loop of the definition regex over one content string:
find the leftmost match from the current position, continue after its end.
Fuel is the remaining input length plus one; every step consumes at least
one character, so the fuel never runs out on the initial call. -/
def scanDefsGo : Nat → Bool → List Char → List (List Char × List Char)
  | 0, _, _ => []
  | fuel + 1, atStart, l =>
    match tryMatchDefAt atStart l with
    | some (t, d, rest) => (t, d) :: scanDefsGo fuel false rest
    | none =>
      match l with
      | [] => []
      | _ :: tail => scanDefsGo fuel false tail

/-- Per-provision processing of the raw regex matches inside
extractDefinitions: normalise, apply the length gates, deduplicate terms
case-insensitively, stop at the hard cap of 50 definitions.  The Bool of
the result records that the cap was reached. -/
def processProvMatches (p : ParsedProvision) :
    List (List Char × List Char) → List String → List ParsedDefinition →
    (List String × List ParsedDefinition × Bool)
  | [], seen, acc => (seen, acc, false)
  | (t, d) :: ms, seen, acc =>
    let term := normaliseWhitespace (String.mk t)
    let defn := normaliseWhitespace (String.mk d)
    if term.length < 2 ∨ defn.length < 10 then processProvMatches p ms seen acc
    else
      let key := String.mk (term.data.map lowerChar)
      if key ∈ seen then processProvMatches p ms seen acc
      else
        let acc2 := acc ++ [(⟨term, defn, some p.provision_ref⟩ : ParsedDefinition)]
        if acc2.length ≥ 50 then (key :: seen, acc2, true)
        else processProvMatches p ms (key :: seen) acc2

/-- The candidate loop of extractDefinitions over the filtered provisions;
a reached cap aborts the whole extraction immediately. -/
def extractDefsGo : List ParsedProvision → List String → List ParsedDefinition →
    List ParsedDefinition
  | [], _, acc => acc
  | p :: rest, seen, acc =>
    match processProvMatches p
        (scanDefsGo (p.content.data.length + 1) true p.content.data) seen acc with
    | (_, acc2, true) => acc2
    | (seen2, acc2, false) => extractDefsGo rest seen2 acc2

/-- Model of extractDefinitions (parser.ts lines 283-317): restrict to
candidate provisions (section 1, or a title containing the definition
marker, or content containing the means keyword), then scan each with the
definition regex. -/
def extractDefinitions (provisions : List ParsedProvision) : List ParsedDefinition :=
  let candidates := provisions.filter (fun p =>
    p.sectionLabel == "1" || containsCI p.title "definition" ||
      containsCI p.content "means")
  extractDefsGo candidates [] []

/-- The ASCII apostrophe, written by code point to keep source literals
free of quote characters. -/
def apos : Char := Char.ofNat 39

/-- The concrete candidate provision of C8.  Its content reads: an
apostrophe, Personal Data, an apostrophe, then the words: means any
information relating to an identified individual, ending with a period. -/
def c8Provision : ParsedProvision :=
  { provision_ref := "art1", sectionLabel := "1", title := "Article (1)",
    content := String.mk (apos :: "Personal Data".data ++ apos ::
      " means any information relating to an identified individual.".data) }

/-- C8 counterexample: the extraction on the concrete content yields the
explanation without the trailing period, because the explanation class of
the regex excludes sentence punctuation; the claimed pair with the period
inside the definition text is not produced. -/
theorem claim_C8_counterexample :
    (extractDefinitions [c8Provision]).map (fun d => d.definition) =
      ["any information relating to an identified individual"] ∧
    ¬ (extractDefinitions [c8Provision]).map (fun d => d.definition) =
      ["any information relating to an identified individual."] := by
  constructor
  · decide
  · decide

/-- C8 (amended): on the concrete content, definition extraction yields
exactly the pair with term Personal Data and definition text: any
information relating to an identified individual — without the trailing
period, the explanation being bounded exclusively at sentence
punctuation. -/
theorem claim_C8_amended_definition_extraction :
    extractDefinitions [c8Provision] =
      [{ term := "Personal Data",
         definition := "any information relating to an identified individual",
         source_provision := some "art1" }] := by
  decide

/-- A row of the English laws list (interface ListedLaw of parser.ts). -/
structure ListedLaw where
  raw_title : String
  title_en : String
  title_ar : Option String
  title : String
  pdf_path : String
  docx_path : String
  pdf_url : String
  docx_url : String
  docx_file_name : String
deriving DecidableEq

/-- A target configuration (interface TargetLawConfig of parser.ts). -/
structure TargetLawConfig where
  id : String
  short_name : String
  docx_file_name : String
deriving DecidableEq

/-- Model of normaliseFileKey of the ingestion driver: collapse whitespace
and lower-case. -/
def normaliseFileKey (value : String) : String :=
  String.mk ((normaliseWhitespace value).data.map lowerChar)

/-- The curated overrides FIXED_TARGETS_BY_DOCX of the ingestion driver
(src/unnamed/part_000 lines 474-525), as the list of its values. -/
def FIXED_TARGETS_BY_DOCX : List TargetLawConfig := [
  ⟨"qa-pdp-law", "Law 13/2016 (PDP)", "132016.docx"⟩,
  ⟨"qa-cybercrime-law", "Law 14/2014 (Cybercrime)", "142014.docx"⟩,
  ⟨"qa-ncsa-establishment", "Amiri Decision 1/2021", "012021.docx"⟩,
  ⟨"qa-egov-policies", "CoM Decision 18/2010", "182010.docx"⟩,
  ⟨"qa-right-to-access-information", "Law 9/2022", "092022.docx"⟩,
  ⟨"qa-penal-code", "Law 11/2004 (Penal Code)",
    "Law No. 11 of 2004 Promulgating the Penal Code.docx"⟩,
  ⟨"qa-aml-cft-law", "Law 20/2019 (AML/CFT)",
    "Law No. (20) of 2019 on the Promulgation of Anti-Money Laundering and Terrorism Financing Law.docx"⟩,
  ⟨"qa-aml-cft-exec-regulation", "CoM Decision 41/2019",
    "The Council of Ministers Decision No. (41) of 2019 on issuance of the Executive Regulation of The Anti-Money Laundering and Terrorism Financing Law Promulgated by Law No. (20) of 2019.docx"⟩,
  ⟨"qa-tenders-auctions-law", "Law 24/2015 (Tenders)", "242015.docx"⟩,
  ⟨"qa-tenders-auctions-exec-regulation", "CoM Decision 16/2019", "162019.docx"⟩]

/-- The fixedByDocx map of buildTargets: values keyed by the normalised
docx file name. -/
def fixedByDocx : List (String × TargetLawConfig) :=
  FIXED_TARGETS_BY_DOCX.map (fun t => (normaliseFileKey t.docx_file_name, t))

/-- Decimal digit character for a value below ten. -/
def digitChar (n : Nat) : Char := Char.ofNat (48 + n)

/-- Decimal digit list of a natural number, with fuel (the callers pass
one more than the number, which suffices). -/
def decDigitsGo : Nat → Nat → List Char
  | 0, _ => []
  | fuel + 1, n =>
    if n < 10 then [digitChar n]
    else decDigitsGo fuel (n / 10) ++ [digitChar (n % 10)]

/-- Decimal rendering of a natural number, modelling the template
interpolation of numbers into strings. -/
def natToDec (n : Nat) : String := String.mk (decDigitsGo (n + 1) n)

/-- Base-ten read-back of a digit list, used to prove the rendering
injective. -/
def decValue (l : List Char) : Nat := l.foldl (fun a c => 10 * a + (c.toNat - 48)) 0

theorem digitChar_toNat {n : Nat} (h : n < 10) : (digitChar n).toNat = 48 + n := by
  interval_cases n <;> decide

theorem decValue_digitsGo : ∀ fuel n, n < fuel → decValue (decDigitsGo fuel n) = n := by
  intro fuel
  induction fuel with
  | zero => intro n h; exact absurd h (Nat.not_lt_zero n)
  | succ fuel ih =>
    intro n h
    by_cases h10 : n < 10
    · simp only [decDigitsGo, if_pos h10]
      show decValue [digitChar n] = n
      unfold decValue
      simp [digitChar_toNat h10]
    · simp only [decDigitsGo, if_neg h10]
      have hdiv : n / 10 < fuel := by omega
      have hrec := ih (n / 10) hdiv
      unfold decValue at hrec ⊢
      rw [List.foldl_append]
      rw [hrec]
      simp only [List.foldl_cons, List.foldl_nil]
      rw [digitChar_toNat (by omega : n % 10 < 10)]
      omega

theorem natToDec_data_inj {m n : Nat}
    (h : (natToDec m).data = (natToDec n).data) : m = n := by
  have hm := decValue_digitsGo (m + 1) m (Nat.lt_succ_self m)
  have hn := decValue_digitsGo (n + 1) n (Nat.lt_succ_self n)
  have h2 : decDigitsGo (m + 1) m = decDigitsGo (n + 1) n := h
  rw [← hm, ← hn, h2]

theorem cand_inj (slug : String) {a b : Nat}
    (h : "qa-" ++ slug ++ "-" ++ natToDec a = "qa-" ++ slug ++ "-" ++ natToDec b) :
    a = b := by
  have hd := congrArg String.data h
  rw [String.data_append, String.data_append] at hd
  exact natToDec_data_inj (List.append_cancel_left hd)

/-- The combining-diacritics range stripped by slugify. -/
def isCombining (c : Char) : Bool := decide (0x300 ≤ c.toNat ∧ c.toNat ≤ 0x36f)

/-- The quote characters removed by slugify: the ASCII apostrophe, the
right single quotation mark, and the backtick, named by code point. -/
def isSlugQuote (c : Char) : Bool :=
  c.toNat == 39 || c.toNat == 0x2019 || c.toNat == 96

/-- Model of slugify of the ingestion driver (src/unnamed/part_000 lines
633-643).  NFKD normalisation is modelled as the identity (it is the
identity on ASCII text, the range these file stems and titles use) and
case mapping on the ASCII range: strip combining marks, lower-case, expand
ampersands, remove quotes, collapse non-alphanumeric runs to dashes, trim
dashes. -/
def slugify (value : String) : String :=
  let l1 := value.data.filter (fun c => !(isCombining c))
  let l2 := l1.map lowerChar
  let l3 := l2.flatMap (fun c => if c = '&' then " and ".data else [c])
  let l4 := l3.filter (fun c => !(isSlugQuote c))
  String.mk (trimDashes (dashCollapseGo false l4))

/-- The suffix of a character list starting at its last dot, if any. -/
def lastDotSuffix : List Char → Option (List Char)
  | [] => none
  | c :: rest =>
    match lastDotSuffix rest with
    | some s => some s
    | none => if c = '.' then some (c :: rest) else none

/-- Node extname semantics for names without path separators: the suffix
from the last dot, where a dot in the leading position does not start an
extension. -/
def extnameOf (l : List Char) : List Char :=
  match l with
  | [] => []
  | _ :: rest =>
    match lastDotSuffix rest with
    | some s => s
    | none => []

/-- Model of path.basename(name, path.extname(name)) for the slash-free
file names this pipeline sees. -/
def fileStemOf (name : String) : List Char :=
  let l := name.data
  let ext := extnameOf l
  l.take (l.length - ext.length)

/-- JS string disjunction: the empty string is falsy. -/
def jsOr (a b : String) : String := if a = "" then b else a

/-- The test of the regex for all-digit slugs. -/
def isAllDigits (l : List Char) : Bool := !l.isEmpty && l.all isAsciiDigit

/-- Strip trailing dashes, the replace of the dash-run-at-end regex. -/
def dropTrailingDashes (l : List Char) : List Char :=
  (l.reverse.dropWhile (fun c => c == '-')).reverse

/-- The collision-suffix loop of generateAutoId: try the suffixed
candidates until an unused id is found.  The callers pass fuel exceeding
the size of the used set, which the freshness lemma shows is enough. -/
def autoIdLoop (slug : String) (used : List String) : Nat → Nat → String
  | 0, suffix => "qa-" ++ slug ++ "-" ++ natToDec suffix
  | fuel + 1, suffix =>
    let candidate := "qa-" ++ slug ++ "-" ++ natToDec suffix
    if candidate ∈ used then autoIdLoop slug used fuel (suffix + 1) else candidate

/-- The slug computation of generateAutoId (src/unnamed/part_000 lines
654-673): slugify the file stem, fall back to the title slug for empty or
all-numeric slugs, default to an ordinal name, truncate to 72 characters
stripping trailing dashes. -/
def generateAutoSlug (law : ListedLaw) (ordinal : Nat) : String :=
  let slug0 := slugify (String.mk (fileStemOf law.docx_file_name))
  let slug1 :=
    if slug0 = "" ∨ isAllDigits slug0.data then
      slugify (jsOr law.title_en (jsOr law.title ("law-" ++ natToDec (ordinal + 1))))
    else slug0
  let slug2 := if slug1 = "" then "law-" ++ natToDec (ordinal + 1) else slug1
  if slug2.length > 72 then String.mk (dropTrailingDashes (slug2.data.take 72))
  else slug2

/-- Model of generateAutoId (src/unnamed/part_000 lines 653-677): the slug
above prefixed with qa-, with collisions against used ids suffixed away. -/
def generateAutoId (law : ListedLaw) (ordinal : Nat) (used : List String) : String :=
  let slug := generateAutoSlug law ordinal
  let candidate := "qa-" ++ slug
  if candidate ∈ used then autoIdLoop slug used (used.length + 1) 2
  else candidate

/-- Model of shortNameFromTitle of the ingestion driver. -/
def shortNameFromTitle (title : String) : String :=
  let compact := normaliseWhitespace title
  if compact.length ≤ 120 then compact
  else String.mk (jsTrimList (compact.data.take 117)) ++ "..."

/-- Model of buildTargets (src/unnamed/part_000 lines 679-701): curated
overrides are taken as they are (their id marked used), other entries get
a synthesized id avoiding all ids used so far. -/
def buildTargetsGo : List ListedLaw → Nat → List String → List TargetLawConfig
  | [], _, _ => []
  | law :: rest, index, used =>
    match mapGet fixedByDocx (normaliseFileKey law.docx_file_name) with
    | some fixed => fixed :: buildTargetsGo rest (index + 1) (fixed.id :: used)
    | none =>
      let id := generateAutoId law index used
      (⟨id, shortNameFromTitle (jsOr law.title_en (jsOr law.title law.docx_file_name)),
        law.docx_file_name⟩ : TargetLawConfig) ::
        buildTargetsGo rest (index + 1) (id :: used)

def buildTargets (laws : List ListedLaw) : List TargetLawConfig :=
  buildTargetsGo laws 0 []

theorem autoIdLoop_mem (slug : String) (used : List String) :
    ∀ fuel suffix, autoIdLoop slug used fuel suffix ∈ used →
      ∀ i, i < fuel → ("qa-" ++ slug ++ "-" ++ natToDec (suffix + i)) ∈ used := by
  intro fuel
  induction fuel with
  | zero =>
    intro suffix _ i hi
    exact absurd hi (Nat.not_lt_zero i)
  | succ fuel ih =>
    intro suffix h i hi
    by_cases hc : ("qa-" ++ slug ++ "-" ++ natToDec suffix) ∈ used
    · have hred : autoIdLoop slug used (fuel + 1) suffix =
          autoIdLoop slug used fuel (suffix + 1) := by
        simp [autoIdLoop, hc]
      rw [hred] at h
      cases i with
      | zero => simpa using hc
      | succ j =>
        have hj : j < fuel := by omega
        have := ih (suffix + 1) h j hj
        have harith : suffix + 1 + j = suffix + (j + 1) := by omega
        rwa [harith] at this
    · have hred : autoIdLoop slug used (fuel + 1) suffix =
          "qa-" ++ slug ++ "-" ++ natToDec suffix := by
        simp [autoIdLoop, hc]
      rw [hred] at h
      exact absurd h hc

theorem autoIdLoop_fresh (slug : String) (used : List String) (suffix : Nat) :
    autoIdLoop slug used (used.length + 1) suffix ∉ used := by
  intro hmem
  have hall := autoIdLoop_mem slug used (used.length + 1) suffix hmem
  have hsub : ((List.range (used.length + 1)).map
      (fun i => "qa-" ++ slug ++ "-" ++ natToDec (suffix + i))) ⊆ used := by
    intro x hx
    rcases List.mem_map.mp hx with ⟨i, hi, rfl⟩
    exact hall i (List.mem_range.mp hi)
  have hinj : Function.Injective
      (fun i => "qa-" ++ slug ++ "-" ++ natToDec (suffix + i)) := by
    intro a b hab
    have := cand_inj slug hab
    omega
  have hnd := (List.nodup_range (used.length + 1)).map hinj
  have hle := (hnd.subperm hsub).length_le
  simp only [List.length_map, List.length_range] at hle
  omega

theorem generateAutoId_fresh (law : ListedLaw) (ordinal : Nat) (used : List String) :
    generateAutoId law ordinal used ∉ used := by
  show (if ("qa-" ++ generateAutoSlug law ordinal) ∈ used then
      autoIdLoop (generateAutoSlug law ordinal) used (used.length + 1) 2
    else ("qa-" ++ generateAutoSlug law ordinal)) ∉ used
  by_cases hc : ("qa-" ++ generateAutoSlug law ordinal) ∈ used
  · rw [if_pos hc]
    exact autoIdLoop_fresh _ _ _
  · rw [if_neg hc]
    exact hc

/-- Default values used with getD in the C9 statements. -/
def defaultLaw : ListedLaw := ⟨"", "", none, "", "", "", "", "", ""⟩

def defaultTarget : TargetLawConfig := ⟨"", "", ""⟩

theorem buildTargetsGo_fresh :
    ∀ (laws : List ListedLaw) (index : Nat) (used : List String) (j : Nat),
      j < laws.length →
      mapGet fixedByDocx
        (normaliseFileKey ((laws.getD j defaultLaw).docx_file_name)) = none →
      ((buildTargetsGo laws index used).getD j defaultTarget).id ∉ used ∧
      ∀ i, i < j → ((buildTargetsGo laws index used).getD i defaultTarget).id ≠
        ((buildTargetsGo laws index used).getD j defaultTarget).id := by
  intro laws
  induction laws with
  | nil =>
    intro index used j hj
    exact absurd hj (by simp)
  | cons law rest ih =>
    intro index used j hj hauto
    rcases hfix : mapGet fixedByDocx (normaliseFileKey law.docx_file_name) with _ | fixed
    · have hred : buildTargetsGo (law :: rest) index used =
          (⟨generateAutoId law index used,
            shortNameFromTitle (jsOr law.title_en (jsOr law.title law.docx_file_name)),
            law.docx_file_name⟩ : TargetLawConfig) ::
            buildTargetsGo rest (index + 1) (generateAutoId law index used :: used) := by
        simp [buildTargetsGo, hfix]
      cases j with
      | zero =>
        constructor
        · rw [hred]
          simpa using generateAutoId_fresh law index used
        · intro i hi
          exact absurd hi (Nat.not_lt_zero i)
      | succ j2 =>
        have hj2 : j2 < rest.length := by simpa using hj
        have hauto2 : mapGet fixedByDocx
            (normaliseFileKey ((rest.getD j2 defaultLaw).docx_file_name)) = none := by
          simpa using hauto
        obtain ⟨hnot, hne⟩ := ih (index + 1)
          (generateAutoId law index used :: used) j2 hj2 hauto2
        constructor
        · rw [hred]
          simp only [List.getD_cons_succ]
          intro hmem
          exact hnot (List.mem_cons_of_mem _ hmem)
        · intro i hi
          cases i with
          | zero =>
            rw [hred]
            simp only [List.getD_cons_zero, List.getD_cons_succ]
            intro heq
            apply hnot
            rw [← heq]
            exact List.mem_cons_self _ _
          | succ i2 =>
            rw [hred]
            simp only [List.getD_cons_succ]
            exact hne i2 (by omega)
    · have hred : buildTargetsGo (law :: rest) index used =
          fixed :: buildTargetsGo rest (index + 1) (fixed.id :: used) := by
        simp [buildTargetsGo, hfix]
      cases j with
      | zero =>
        exfalso
        simp only [List.getD_cons_zero] at hauto
        rw [hauto] at hfix
        cases hfix
      | succ j2 =>
        have hj2 : j2 < rest.length := by simpa using hj
        have hauto2 : mapGet fixedByDocx
            (normaliseFileKey ((rest.getD j2 defaultLaw).docx_file_name)) = none := by
          simpa using hauto
        obtain ⟨hnot, hne⟩ := ih (index + 1) (fixed.id :: used) j2 hj2 hauto2
        constructor
        · rw [hred]
          simp only [List.getD_cons_succ]
          intro hmem
          exact hnot (List.mem_cons_of_mem _ hmem)
        · intro i hi
          cases i with
          | zero =>
            rw [hred]
            simp only [List.getD_cons_zero, List.getD_cons_succ]
            intro heq
            apply hnot
            rw [← heq]
            exact List.mem_cons_self _ _
          | succ i2 =>
            rw [hred]
            simp only [List.getD_cons_succ]
            exact hne i2 (by omega)

/-- The listed law whose docx file matches the curated PDP override. -/
def pdpListedLaw : ListedLaw :=
  ⟨"Law No. (13) of 2016", "Law No. (13) of 2016", none, "Law No. (13) of 2016",
    "p", "d", "pu", "du", "132016.docx"⟩

/-- C9 counterexample: a discovery list containing the same curated docx
file twice receives the same id qa-pdp-law for both targets, because a
curated override is assigned without consulting the used-id set. -/
theorem claim_C9_counterexample :
    ((buildTargets [pdpListedLaw, pdpListedLaw]).getD 0 defaultTarget).id =
      ((buildTargets [pdpListedLaw, pdpListedLaw]).getD 1 defaultTarget).id ∧
    ((buildTargets [pdpListedLaw, pdpListedLaw]).getD 0 defaultTarget).id =
      "qa-pdp-law" := by
  constructor
  · decide
  · decide

/-- C9 (amended): pairwise distinctness of target ids holds whenever the
later of the two targets is synthesized: a target whose entry matches no
curated override never shares its id with any earlier target.  Only a
curated override assigned to a later entry can duplicate an id. -/
theorem claim_C9_amended_synthesized_ids_distinct (laws : List ListedLaw)
    (i j : Nat) (hij : i < j) (hj : j < laws.length)
    (hauto : mapGet fixedByDocx
      (normaliseFileKey ((laws.getD j defaultLaw).docx_file_name)) = none) :
    ((buildTargets laws).getD i defaultTarget).id ≠
      ((buildTargets laws).getD j defaultTarget).id :=
  (buildTargetsGo_fresh laws 0 [] j hj hauto).2 i hij

/-- A listed law outside the curated table, used twice to exercise the
collision suffix. -/
def autoListedLaw : ListedLaw :=
  ⟨"T", "T", none, "T", "p", "d", "pu", "du", "a.docx"⟩

/-- Witness for the amended C9 on a concrete two-entry discovery list. -/
theorem claim_C9_witness :
    ((buildTargets [autoListedLaw, autoListedLaw]).getD 0 defaultTarget).id ≠
      ((buildTargets [autoListedLaw, autoListedLaw]).getD 1 defaultTarget).id :=
  claim_C9_amended_synthesized_ids_distinct [autoListedLaw, autoListedLaw]
    0 1 (by decide) (by decide) (by decide)

/-- A parse result: provisions and definitions, the shape returned by
parseDocxLegislation and parseLawViewWordLegislation. -/
structure ParsedPair where
  provisions : List ParsedProvision
  definitions : List ParsedDefinition
deriving DecidableEq

/-- An Arabic-language fallback source (interface ArabicFallbackConfig of
the ingestion driver). -/
structure ArabicFallbackConfig where
  lawId : String
  language : String
deriving DecidableEq

/-- The table ARABIC_FALLBACK_BY_DOCX of the ingestion driver
(src/unnamed/part_000 lines 527-536); the file names contain the right
single quotation mark exactly as in the source. -/
def ARABIC_FALLBACK_BY_DOCX : List (String × ArabicFallbackConfig) := [
  ("Law No. (16) of 2018 on the Regulation of Non-Qataris’ Ownership and Usage of Real Estate.docx",
    ⟨"7797", "ar"⟩),
  ("Law No. (17) of 2018 on Establishing Workers’ Support and Insurance Fund.docx",
    ⟨"7798", "ar"⟩)]

/-- Model of fallbackByDocxFile (src/unnamed/part_000 lines 703-711). -/
def fallbackByDocxFile (fileName : String) : Option ArabicFallbackConfig :=
  let key := normaliseFileKey fileName
  (ARABIC_FALLBACK_BY_DOCX.find? (fun e => normaliseFileKey e.1 == key)).map Prod.snd

def buildLawViewWordUrl (lawId language : String) : String :=
  "https://www.almeezan.qa/LawViewWord.aspx?LawID=" ++ lawId ++
    "&mode=DOC&language=" ++ language

def buildLawPageUrl (lawId language : String) : String :=
  "https://www.almeezan.qa/LawPage.aspx?id=" ++ lawId ++ "&language=" ++ language

/-- JS string disjunction where the first operand may be undefined. -/
def jsOrOpt (a : Option String) (b : String) : String :=
  match a with
  | some t => jsOr t b
  | none => b

/-- The canonical output record (interface ParsedDocument of parser.ts,
without the constant type field). -/
structure SeedDocument where
  id : String
  title : String
  title_en : String
  short_name : String
  status : String
  url : String
  description : String
  provisions : List ParsedProvision
  definitions : List ParsedDefinition
deriving DecidableEq

/-- Model of buildSeedDocument as invoked by the ingestion driver: the
field shapes of parser.ts lines 386-406, with the source url and source
description supplied by the caller (src/unnamed/part_000 lines
1050-1053). -/
def buildSeedDocument (target : TargetLawConfig) (law : ListedLaw)
    (parsed : ParsedPair) (sourceUrl sourceDescription : String) : SeedDocument :=
  { id := target.id,
    title := jsOrOpt law.title_ar law.title_en,
    title_en := jsOr law.title_en law.title,
    short_name := target.short_name,
    status := "in_force",
    url := sourceUrl,
    description := sourceDescription,
    provisions := parsed.provisions,
    definitions := parsed.definitions }

/-- Outcome of one English-corpus catalog entry: a written seed record or
a skip with its recorded reason. -/
inductive EnglishOutcome
  | written (seed : SeedDocument)
  | skipped (reason : String)
deriving DecidableEq

/-- Per-entry body of the English DOCX corpus loop of
ingestEnglishDocxCorpus (src/unnamed/part_000 lines 1000-1067).  File and
network effects are abstracted into the outcomes of loading and parsing
the primary DOCX source and the Arabic LawViewWord fallback source, each a
parse result or a thrown error message. -/
def englishProcessOne (law : ListedLaw) (target : TargetLawConfig)
    (docxResult : Except String ParsedPair)
    (fallbackResult : Except String ParsedPair) : EnglishOutcome :=
  let finish : ParsedPair → String → String → EnglishOutcome :=
    fun parsed sourceUrl sourceDescription =>
      if parsed.provisions.isEmpty then
        .skipped ("english:" ++ target.id ++ ": no article-level provisions found")
      else .written (buildSeedDocument target law parsed sourceUrl sourceDescription)
  match docxResult with
  | .ok parsed =>
    finish parsed law.docx_url
      "Official legislation text retrieved from Al Meezan Legal Portal (English laws list source)."
  | .error docxMsg =>
    match fallbackByDocxFile law.docx_file_name with
    | none =>
      .skipped ("english:" ++ target.id ++ ": docx unavailable or unparseable (" ++
        law.docx_file_name ++ ")")
    | some fallback =>
      match fallbackResult with
      | .ok parsed =>
        finish parsed (buildLawViewWordUrl fallback.lawId fallback.language)
          "Official legislation text retrieved from Al Meezan LawViewWord Arabic source (English translation unavailable)."
      | .error fallbackMsg =>
        .skipped ("english:" ++ target.id ++ ": fallback failed (" ++ fallback.lawId ++
          "/" ++ fallback.language ++ "); docx=" ++ docxMsg ++ "; fallback=" ++
          fallbackMsg)

/-- The seed record written by the Arabic corpus path (the object literal
of processLaw). -/
structure ArabicSeed where
  id : String
  title : String
  short_name : String
  status : String
  url : String
  description : String
  provisions : List ParsedProvision
  definitions : List ParsedDefinition
deriving DecidableEq

/-- Result of one Arabic-corpus entry: the seed written for it and the
statistics increments it performs. -/
structure ProcessLawResult where
  seed : ArabicSeed
  writtenDelta : Nat
  fetchFailedDelta : Nat
  textlessDelta : Nat
deriving DecidableEq

/-- Model of the processLaw closure of ingestArabicCorpus
(src/unnamed/part_000 lines 1102-1162): unless metadata-only mode is set,
fetch and parse LawViewWord (abstracted into an outcome); then always
write exactly one seed record, choosing url and description by mode and
failure, with the fetched provisions and definitions or empty lists. -/
def processLaw (arMetadataOnly : Bool) (law : LawListing)
    (lawViewResult : Except String ParsedPair) : ProcessLawResult :=
  let lawViewUrl := buildLawViewWordUrl law.law_id "ar"
  let lawPageUrl := buildLawPageUrl law.law_id "ar"
  let parsedAndError : Option ParsedPair × Option String :=
    if arMetadataOnly then (none, none)
    else
      match lawViewResult with
      | .ok p => (some p, none)
      | .error m => (none, some m)
  let parsed := parsedAndError.1
  let fetchErrorMessage := parsedAndError.2
  let provisions := match parsed with | some p => p.provisions | none => []
  let definitions := match parsed with | some p => p.definitions | none => []
  let textMissing := provisions.isEmpty
  let yearText := natToDec law.year
  let description :=
    match fetchErrorMessage with
    | some m =>
      "Official Al Meezan listing metadata retained. LawViewWord could not be fetched at ingestion time (" ++
        m ++ "). Listed year: " ++ yearText ++ "."
    | none =>
      if arMetadataOnly then
        "Official Al Meezan listing metadata retained (LawViewWord fetching disabled by ingestion mode). Listed year: " ++
          yearText ++ "."
      else if textMissing then
        "Official Al Meezan listing metadata retained. LawViewWord returned no article-level text at ingestion time. Listed year: " ++
          yearText ++ "."
      else
        "Official legislation text retrieved from Al Meezan LawViewWord Arabic source. Listed year: " ++
          yearText ++ "."
  let seedRec : ArabicSeed :=
    { id := "qa-law-" ++ law.law_id, title := law.title,
      short_name := shortNameFromTitle law.title, status := "in_force",
      url := if arMetadataOnly then lawPageUrl else lawViewUrl,
      description := description, provisions := provisions,
      definitions := definitions }
  { seed := seedRec,
    writtenDelta := 1,
    fetchFailedDelta := match fetchErrorMessage with | some _ => 1 | none => 0,
    textlessDelta := if textMissing then 1 else 0 }

/-- The catalog entry of the C1 counterexample: its docx file has a
configured Arabic fallback, so both sources are attempted. -/
def c1ListedLaw : ListedLaw :=
  ⟨"t", "t", none, "t", "p", "d", "pu", "du",
    "Law No. (16) of 2018 on the Regulation of Non-Qataris’ Ownership and Usage of Real Estate.docx"⟩

/-- C1 counterexample: in the English DOCX corpus, when the primary source
fails and the configured alternate source yields zero provisions, the
entry is skipped and no record is emitted, contradicting the claim that a
record with empty provisions is still written. -/
theorem claim_C1_counterexample :
    englishProcessOne c1ListedLaw ⟨"qa-x", "X", c1ListedLaw.docx_file_name⟩
        (.error "curl exit 7") (.ok ⟨[], []⟩) =
      .skipped "english:qa-x: no article-level provisions found" := by
  decide

/-- C1 (amended): in the Arabic corpus path a record is always produced
and counted: when the LawViewWord source fails, the seed still counts
toward records written, with empty provisions, empty definitions, and a
non-empty explanatory description.  In the English DOCX path, by contrast,
an entry whose primary and alternate sources both fail to yield provisions
is skipped and no record is emitted. -/
theorem claim_C1_amended_arabic_always_writes (law : LawListing) (msg : String) :
    (processLaw false law (.error msg)).writtenDelta = 1 ∧
    (processLaw false law (.error msg)).seed.provisions = [] ∧
    (processLaw false law (.error msg)).seed.definitions = [] ∧
    (processLaw false law (.error msg)).seed.description ≠ "" := by
  refine ⟨rfl, rfl, rfl, ?_⟩
  intro h
  have hdesc : (processLaw false law (Except.error msg)).seed.description =
      "Official Al Meezan listing metadata retained. LawViewWord could not be fetched at ingestion time (" ++
        msg ++ "). Listed year: " ++ natToDec law.year ++ "." := rfl
  rw [hdesc] at h
  have hlen := congrArg String.length h
  rw [String.length_append, String.length_append, String.length_append,
    String.length_append] at hlen
  have hpos : 0 <
      ("Official Al Meezan listing metadata retained. LawViewWord could not be fetched at ingestion time (").length := by
    decide
  have h0 : ("" : String).length = 0 := rfl
  rw [h0] at hlen
  omega

end QatariLaw
